import Mathlib

/-!
Verification of the setlist-reconciliation core
(`matching.py`, `llm_matching.py`, `reconciler.py`, `config.py`).

The Python source is shallowly embedded below.  Strings are modelled as
`String` / `List Char`; Python's `re` operations on the two patterns used
by `normalize` (`\s*\(.*?\)\s*` and `\s+`) are implemented directly as
executable scans with the exact leftmost / non-greedy semantics of
`re.sub` (the `.` in `.*?` does not cross a newline).  The two scans take
an explicit fuel argument (`subPassF`, `collapseWsF`) so that every
definition is structurally recursive and kernel-computable; fuel equal to
the length of the input is always sufficient, and the wrappers `subPass` /
`collapseWs` supply it.

Unicode case mapping is modelled on the ASCII range (the only case-mapped
characters exercised by the development); `str.lower` on any other
character is the identity here.  Python's `\s` class is modelled with the
full set of code points it matches on `str` patterns.
-/

namespace Wcm

/-- Python's `\s` character class (and `str.strip` whitespace) on `str`. -/
def pyIsSpace (c : Char) : Bool :=
  decide (c.toNat = 0x20 ∨ (0x9 ≤ c.toNat ∧ c.toNat ≤ 0xd) ∨
    (0x1c ≤ c.toNat ∧ c.toNat ≤ 0x1f) ∨
    c.toNat = 0x85 ∨ c.toNat = 0xa0 ∨ c.toNat = 0x1680 ∨
    (0x2000 ≤ c.toNat ∧ c.toNat ≤ 0x200a) ∨
    c.toNat = 0x2028 ∨ c.toNat = 0x2029 ∨ c.toNat = 0x202f ∨
    c.toNat = 0x205f ∨ c.toNat = 0x3000)

/-- `str.lower`, character-wise (ASCII case mapping). -/
def pyLower (c : Char) : Char :=
  if 0x41 ≤ c.toNat && c.toNat ≤ 0x5a then Char.ofNat (c.toNat + 0x20) else c

/-- The lazy `.*?\)` part of the pattern `\s*\(.*?\)\s*`: scan for the first
`')'`; `.` does not match `'\n'`, so a newline aborts the search.  Returns
the characters after the `')'`. -/
def findClose : List Char → Option (List Char)
  | [] => none
  | c :: cs => if c = ')' then some cs else if c = '\n' then none else findClose cs

/-- One pass of `re.sub(r'\s*\(.*?\)\s*', ' ', text)`: leftmost-first,
non-overlapping, each match replaced by a single space, scanning resuming
after the match.  `fuel ≥ length of the input` makes the scan complete. -/
def subPassF : Nat → List Char → List Char
  | 0, l => l
  | _ + 1, [] => []
  | fuel + 1, c :: cs =>
    match (c :: cs).dropWhile pyIsSpace with
    | [] => c :: subPassF fuel cs
    | p :: rs =>
      if p = '(' then
        match findClose rs with
        | some after => ' ' :: subPassF fuel (after.dropWhile pyIsSpace)
        | none => c :: subPassF fuel cs
      else c :: subPassF fuel cs

def subPass (l : List Char) : List Char := subPassF l.length l

/-- `re.sub(r'\s+', ' ', text)`: collapse each whitespace run to one space. -/
def collapseWsF : Nat → List Char → List Char
  | 0, l => l
  | _ + 1, [] => []
  | fuel + 1, c :: cs =>
    if pyIsSpace c then ' ' :: collapseWsF fuel (cs.dropWhile pyIsSpace)
    else c :: collapseWsF fuel cs

def collapseWs (l : List Char) : List Char := collapseWsF l.length l

/-- `str.strip()`: drop leading and trailing whitespace. -/
def pyStrip (l : List Char) : List Char :=
  (l.dropWhile pyIsSpace).rdropWhile pyIsSpace

/-- `matching.normalize`: remove parenthetical suffixes (one `re.sub` pass),
lowercase, strip, collapse whitespace runs. -/
def normalize (s : String) : String :=
  ⟨collapseWs (pyStrip ((subPass s.data).map pyLower))⟩

/-! ### config.py constants -/

def VALID_CONFIDENCE : List String := ["Exact", "High", "Review", "None"]

def MAX_RETRIES : Nat := 3

def BACKOFF_BASE : ℚ := 2

def BACKOFF_MAX : ℚ := 30

/-- The delay computed by `llm_matching._backoff_sleep`:
`min(BACKOFF_BASE ** attempt + random.uniform(0, 1), BACKOFF_MAX)`.
The float arithmetic is modelled over `ℚ` (the powers of two and the cap
are exact; the jitter is an arbitrary rational in `[0, 1]`). -/
def backoff_delay (attempt : Nat) (jitter : ℚ) : ℚ :=
  min (BACKOFF_BASE ^ attempt + jitter) BACKOFF_MAX

/-! ### Python values

JSON values decoded by `json.loads`, as seen by `_parse_llm_response` and
`validate_match`.  `pyStr`/`pyRepr` model Python's `str()`/`repr()` on such
values (string containers render with single quotes, as CPython does). -/

inductive PyJson where
  | null
  | bool (b : Bool)
  | int (n : Int)
  | str (s : String)
  | list (xs : List PyJson)
  | dict (kvs : List (String × PyJson))

mutual

def pyRepr : PyJson → String
  | .null => "None"
  | .bool b => if b then "True" else "False"
  | .int n => toString n
  | .str s => "'" ++ s ++ "'"
  | .list xs => "[" ++ String.intercalate ", " (pyReprList xs) ++ "]"
  | .dict kvs => "\x7b" ++ String.intercalate ", " (pyReprDict kvs) ++ "\x7d"

def pyReprList : List PyJson → List String
  | [] => []
  | x :: xs => pyRepr x :: pyReprList xs

def pyReprDict : List (String × PyJson) → List String
  | [] => []
  | (k, v) :: kvs => ("'" ++ k ++ "': " ++ pyRepr v) :: pyReprDict kvs

end

/-- Python `str(x)`. -/
def pyStr : PyJson → String
  | .null => "None"
  | .bool b => if b then "True" else "False"
  | .int n => toString n
  | .str s => s
  | .list xs => pyRepr (.list xs)
  | .dict kvs => pyRepr (.dict kvs)

/-- `str.strip()` on a `String`. -/
def stripStr (s : String) : String := ⟨pyStrip s.data⟩

/-- `str.lower()` on a `String`. -/
def lowerStr (s : String) : String := ⟨s.data.map pyLower⟩

/-- `d.get(k, default)` on a Python dict (keys are unique in a real dict;
the association list keeps insertion order and `lookup` takes the first). -/
def dictGet (kvs : List (String × PyJson)) (k : String) (dflt : PyJson) : PyJson :=
  match kvs.lookup k with
  | some v => v
  | none => dflt

/-! ### matching.py -/

/-- One catalog entry as read by the matchers (`catalog_id`, `title`;
`writers` only ever appears inside the LLM prompt text, which is not
observable in this model). -/
structure Song where
  catalog_id : String
  title : String
deriving Repr, DecidableEq

structure MatchCandidate where
  catalog_id : String
  confidence : String
deriving Repr, DecidableEq

/-- `matching.validate_match`.  `catalog_ids` is the set
`{s["catalog_id"] for s in catalog}`, modelled as a list used only through
membership. -/
def validate_match (m : List (String × PyJson)) (catalog_ids : List String) :
    MatchCandidate :=
  let catalog_id := stripStr (pyStr (dictGet m "catalog_id" (.str "None")))
  let confidence := stripStr (pyStr (dictGet m "confidence" (.str "None")))
  let vp :=
    if catalog_id ≠ "None" ∧ catalog_id ∉ catalog_ids then ("None", "None")
    else (catalog_id, confidence)
  let conf := if vp.2 ∉ VALID_CONFIDENCE then "Review" else vp.2
  ⟨vp.1, conf⟩

def deterministic_match_go (track_name normalized_track : String) :
    List Song → Option (String × String)
  | [] => none
  | song :: rest =>
    if stripStr (lowerStr track_name) = stripStr (lowerStr song.title) then
      some (song.catalog_id, "Exact")
    else if normalized_track = normalize song.title then
      some (song.catalog_id, "Exact")
    else deterministic_match_go track_name normalized_track rest

/-- `matching.deterministic_match`.  The Python function returns the pair
`(catalog_id, "Exact")` for the first catalog entry matching stage 1a or
1b, and `(None, None)` otherwise; those two shapes are
`Option (String × String)` here. -/
def deterministic_match (track_name : String) (catalog : List Song) :
    Option (String × String) :=
  deterministic_match_go track_name (normalize track_name) catalog

/-! ### llm_matching.py

The external client is an oracle giving the outcome of the n-th
`chat.completions.create` call of the run: an API exception, a
`json.JSONDecodeError` from `json.loads`, or a decoded JSON value.  The
module-level mutable state (`_match_cache`) and the ghost instrumentation
(counters of API calls, of cache-missing matcher invocations, and of
deterministic-matcher invocations) live in `RunState`. -/

inductive CallOutcome where
  | failure
  | badJson
  | ok (v : PyJson)

structure Client where
  respond : Nat → CallOutcome

structure RunState where
  cache : List (String × List MatchCandidate)
  api_calls : Nat
  llm_episodes : Nat
  det_calls : Nat
deriving Repr, DecidableEq

def RunState.init : RunState := ⟨[], 0, 0, 0⟩

/-- `llm_matching._cache_key`: `sha256(normalize(track_name).encode()).hexdigest()`.
The collision-resistant hex digest is modelled by the normalized name
itself (an injective stand-in; every claim below depends only on equal
normalized names giving equal keys). -/
def cache_key (track_name : String) : String := normalize track_name

def getListKey (kvs : List (String × PyJson)) (k : String) : Option (List PyJson) :=
  match kvs.lookup k with
  | some (.list xs) => some xs
  | _ => none

def firstListValue : List (String × PyJson) → Option (List PyJson)
  | [] => none
  | (_, .list xs) :: _ => some xs
  | _ :: kvs => firstListValue kvs

/-- `llm_matching._parse_llm_response` on an already-decoded JSON value
(a `json.loads` failure is the `badJson` outcome). -/
def parse_llm_response (v : PyJson) : List PyJson :=
  match v with
  | .list xs => xs
  | .dict kvs =>
    match getListKey kvs "matches" with
    | some xs => xs
    | none =>
      match getListKey kvs "results" with
      | some xs => xs
      | none =>
        match getListKey kvs "data" with
        | some xs => xs
        | none =>
          if (kvs.lookup "catalog_id").isSome then [PyJson.dict kvs]
          else
            match firstListValue kvs with
            | some xs => xs
            | none => []
  | _ => []

/-- `[validate_match(m, catalog_ids) for m in matches]`: a non-dict entry
raises (`.get` on a non-dict), which the surrounding `except Exception`
turns into a retry; that is the `none` result. -/
def validateAll (ids : List String) : List PyJson → Option (List MatchCandidate)
  | [] => some []
  | .dict kvs :: rest =>
    match validateAll ids rest with
    | some vs => some (validate_match kvs ids :: vs)
    | none => none
  | _ :: _ => none

/-- The substitute entry used when parsing yields no matches. -/
def unparseable_entry : PyJson :=
  .dict [("catalog_id", .str "None"), ("confidence", .str "None"),
         ("reasoning", .str "Unparseable response")]

/-- The fallback cached and returned after all retries are exhausted. -/
def exhausted_fallback : List MatchCandidate := [⟨"None", "None"⟩]

/-- The `for attempt in range(max_retries + 1)` loop of `llm_fuzzy_match`:
`fuel` is the number of attempts left.  Each attempt issues one external
call; a success validates, caches and returns; any failure retries; fuel
running out is the retries-exhausted path, which caches and returns the
fallback. -/
def llm_attempts (key : String) (ids : List String) (client : Client) :
    Nat → RunState → List MatchCandidate × RunState
  | 0, st =>
    (exhausted_fallback, { st with cache := (key, exhausted_fallback) :: st.cache })
  | fuel + 1, st =>
    let outcome := client.respond st.api_calls
    let st1 := { st with api_calls := st.api_calls + 1 }
    match outcome with
    | .ok v =>
      let entries := parse_llm_response v
      let entries := if entries.isEmpty then [unparseable_entry] else entries
      match validateAll ids entries with
      | some validated =>
        (validated, { st1 with cache := (key, validated) :: st1.cache })
      | none => llm_attempts key ids client fuel st1
    | .failure => llm_attempts key ids client fuel st1
    | .badJson => llm_attempts key ids client fuel st1

/-- `llm_matching.llm_fuzzy_match`. -/
def llm_fuzzy_match (track_name : String) (catalog : List Song) (client : Client)
    (max_retries : Nat) (st : RunState) : List MatchCandidate × RunState :=
  let key := cache_key track_name
  match st.cache.lookup key with
  | some cached => (cached, st)
  | none =>
    let catalog_ids := catalog.map (·.catalog_id)
    let st := { st with llm_episodes := st.llm_episodes + 1 }
    llm_attempts key catalog_ids client (max_retries + 1) st

/-! ### reconciler.py -/

structure Track where
  show_date : String
  venue_name : String
  setlist_track_name : String
deriving Repr, DecidableEq

structure ResultRow where
  show_date : String
  venue_name : String
  setlist_track_name : String
  matched_catalog_id : String
  matched_catalog_title : String
  match_confidence : String
deriving Repr, DecidableEq

def lookup_title (catalog_id : String) : List Song → String
  | [] => ""
  | song :: rest =>
    if song.catalog_id = catalog_id then song.title else lookup_title catalog_id rest

/-- `reconciler._result_row` (the guard `if catalog_id and catalog_id != "None"`
is Python truthiness: the empty string is falsy). -/
def _result_row (track : Track) (catalog_id confidence : String)
    (catalog : List Song) : ResultRow :=
  let matched_title :=
    if catalog_id ≠ "" ∧ catalog_id ≠ "None" then lookup_title catalog_id catalog else ""
  ⟨track.show_date, track.venue_name, track.setlist_track_name,
   catalog_id, matched_title, confidence⟩

/-- Python `"/" in track_name` for the one-character pattern. -/
def containsSlash (s : String) : Bool := s.data.contains '/'

/-- The body of `reconcile`'s per-track loop.  The medley branch and the
stage-2 branch run the same code (skip-with-a-"None/None"-row when no
client, otherwise one row per LLM match candidate); `stage2` is that
common code.  `det_calls` counts invocations of `deterministic_match`. -/
def process_track (catalog : List Song) (client : Option Client) (track : Track)
    (st0 : RunState) : List ResultRow × RunState :=
  let track_name := track.setlist_track_name
  let stage2 : RunState → List ResultRow × RunState := fun st =>
    match client with
    | none => ([_result_row track "None" "None" catalog], st)
    | some c =>
      let p := llm_fuzzy_match track_name catalog c MAX_RETRIES st
      (p.1.map (fun m => _result_row track m.catalog_id m.confidence catalog), p.2)
  if containsSlash track_name then stage2 st0
  else
    let st := { st0 with det_calls := st0.det_calls + 1 }
    match deterministic_match track_name catalog with
    | some (catalog_id, confidence) =>
      if catalog_id ≠ "" then ([_result_row track catalog_id confidence catalog], st)
      else stage2 st
    | none => stage2 st

/-- `reconcile`'s `if client is None: ... OpenAI(api_key=api_key)` prologue.
`api_key_env` is `os.getenv("OPENAI_API_KEY")`; `openai_new` is the
`OpenAI` constructor (`if api_key:` is falsy on `None` and `""`). -/
def resolve_client (client : Option Client) (api_key_env : Option String)
    (openai_new : String → Client) : Option Client :=
  match client with
  | some c => some c
  | none =>
    match api_key_env with
    | some key => if key ≠ "" then some (openai_new key) else none
    | none => none

def reconcile_go (catalog : List Song) (client : Option Client) :
    List Track → RunState → List ResultRow × RunState
  | [], st => ([], st)
  | t :: ts, st =>
    let p := process_track catalog client t st
    let q := reconcile_go catalog client ts p.2
    (p.1 ++ q.1, q.2)

/-- `reconciler.reconcile`. -/
def reconcile (tracks : List Track) (catalog : List Song) (client : Option Client)
    (api_key_env : Option String) (openai_new : String → Client) (st : RunState) :
    List ResultRow × RunState :=
  reconcile_go catalog (resolve_client client api_key_env openai_new) tracks st

/-! ### Specification-side definitions and observation predicates -/

/-- Modelled from the spec (§4.3): the validator's rules written in the
spec's order — extract with defaults and trim; rule 1 (unknown id forces
both fields to "None"); then rule 2 (unknown confidence forced to
"Review").  Compared against `validate_match` below. -/
def validate_match_spec (m : List (String × PyJson)) (catalog_ids : List String) :
    MatchCandidate :=
  let cid0 := stripStr (pyStr (dictGet m "catalog_id" (.str "None")))
  let conf0 := stripStr (pyStr (dictGet m "confidence" (.str "None")))
  let cid1 := if cid0 ≠ "None" ∧ cid0 ∉ catalog_ids then "None" else cid0
  let conf1 := if cid0 ≠ "None" ∧ cid0 ∉ catalog_ids then "None" else conf0
  let conf2 := if conf1 ∉ VALID_CONFIDENCE then "Review" else conf1
  ⟨cid1, conf2⟩

/-- The single row per track that `reconcile` produces when no client is
available: the deterministic hit, or a "None/None" row for medleys and
deterministic misses. -/
def det_only_row (catalog : List Song) (track : Track) : ResultRow :=
  if containsSlash track.setlist_track_name then
    _result_row track "None" "None" catalog
  else
    match deterministic_match track.setlist_track_name catalog with
    | some (catalog_id, confidence) =>
      if catalog_id ≠ "" then _result_row track catalog_id confidence catalog
      else _result_row track "None" "None" catalog
    | none => _result_row track "None" "None" catalog

/-- `true` iff the list has a `'('` with a `')'` somewhere after it, i.e.
contains a parenthesized substring. -/
def hasPair : List Char → Bool
  | [] => false
  | c :: cs => if c = '(' then decide (')' ∈ cs) || hasPair cs else hasPair cs

/-- `true` iff two consecutive characters are both whitespace. -/
def hasDoubleWs : List Char → Bool
  | c :: c' :: cs => (pyIsSpace c && pyIsSpace c') || hasDoubleWs (c' :: cs)
  | _ => false

def containsParenPair (s : String) : Bool := hasPair s.data

def containsDoubleWs (s : String) : Bool := hasDoubleWs s.data

/-- The first character, if any, is not whitespace. -/
def noLead (l : List Char) : Prop :=
  ∀ c, l.head? = some c → pyIsSpace c = false

/-- The last character, if any, is not whitespace. -/
def noTrail (l : List Char) : Prop :=
  ∀ c, l.getLast? = some c → pyIsSpace c = false

/-- Every whitespace character is a plain `' '`. -/
def blankWs (l : List Char) : Prop :=
  ∀ c ∈ l, pyIsSpace c = true → c = ' '

/-- Every character is fixed by `pyLower`. -/
def allLower (l : List Char) : Prop :=
  ∀ c ∈ l, pyLower c = c

/-- A match candidate is validated with respect to a set of catalog ids:
its id is the sentinel or a known id, its confidence one of the four
recognized values. -/
def candOK (ids : List String) (m : MatchCandidate) : Prop :=
  (m.catalog_id = "None" ∨ m.catalog_id ∈ ids) ∧ m.confidence ∈ VALID_CONFIDENCE

/-- Every cached sequence consists of validated candidates. -/
def cacheOK (ids : List String) (st : RunState) : Prop :=
  ∀ kv ∈ st.cache, ∀ m ∈ kv.2, candOK ids m

/-- A result row respects the output invariant for a given catalog. -/
def rowOK (catalog : List Song) (row : ResultRow) : Prop :=
  (row.matched_catalog_id = "None" ∨ row.matched_catalog_id ∈ catalog.map (·.catalog_id))
  ∧ row.match_confidence ∈ VALID_CONFIDENCE

/-! ## Character-level lemmas -/

theorem toNat_ofNat_valid (n : Nat) (h : n < 0xd800) : (Char.ofNat n).toNat = n := by
  rw [Char.ofNat, dif_pos (Or.inl h)]
  rfl

theorem pyLower_eq_self (c : Char) (h : ¬(0x41 ≤ c.toNat ∧ c.toNat ≤ 0x5a)) :
    pyLower c = c := by
  unfold pyLower
  rw [if_neg]
  simpa using h

theorem pyLower_cases (c : Char) :
    pyLower c = c ∨
      (0x41 ≤ c.toNat ∧ c.toNat ≤ 0x5a ∧ (pyLower c).toNat = c.toNat + 0x20) := by
  by_cases h : 0x41 ≤ c.toNat ∧ c.toNat ≤ 0x5a
  · refine Or.inr ⟨h.1, h.2, ?_⟩
    unfold pyLower
    rw [if_pos (by simpa using h)]
    exact toNat_ofNat_valid _ (by omega)
  · exact Or.inl (pyLower_eq_self c h)

theorem pyLower_pyLower (c : Char) : pyLower (pyLower c) = pyLower c := by
  rcases pyLower_cases c with h | ⟨_, _, h3⟩
  · rw [h]; exact h
  · exact pyLower_eq_self _ (by omega)

/-- `pyLower` both fixes and reflects every character outside the ASCII
letter ranges. -/
theorem pyLower_eq_iff (c d : Char)
    (hd1 : ¬(0x41 ≤ d.toNat ∧ d.toNat ≤ 0x5a))
    (hd2 : ¬(0x61 ≤ d.toNat ∧ d.toNat ≤ 0x7a)) :
    (pyLower c = d ↔ c = d) := by
  rcases pyLower_cases c with h | ⟨h1, h2, h3⟩
  · rw [h]
  · constructor
    · intro he
      have : (pyLower c).toNat = d.toNat := congrArg Char.toNat he
      omega
    · intro he
      have : c.toNat = d.toNat := congrArg Char.toNat he
      omega

theorem pyIsSpace_false_of_ranges (c : Char)
    (h : 0x41 ≤ c.toNat ∧ c.toNat ≤ 0x5a ∨ 0x61 ≤ c.toNat ∧ c.toNat ≤ 0x7a) :
    pyIsSpace c = false := by
  simp only [pyIsSpace, decide_eq_false_iff_not]
  push_neg
  omega

theorem pyIsSpace_pyLower (c : Char) : pyIsSpace (pyLower c) = pyIsSpace c := by
  rcases pyLower_cases c with h | ⟨h1, h2, h3⟩
  · rw [h]
  · rw [pyIsSpace_false_of_ranges c (Or.inl ⟨h1, h2⟩),
      pyIsSpace_false_of_ranges (pyLower c) (Or.inr (by omega))]

/-! ## The validator (claim C5) -/

theorem validate_match_wellformed (m : List (String × PyJson)) (ids : List String) :
    ((validate_match m ids).catalog_id = "None" ∨ (validate_match m ids).catalog_id ∈ ids)
    ∧ (validate_match m ids).confidence ∈ VALID_CONFIDENCE := by
  simp only [validate_match]
  set cid := stripStr (pyStr (dictGet m "catalog_id" (.str "None"))) with hcid
  set conf := stripStr (pyStr (dictGet m "confidence" (.str "None"))) with hconf
  by_cases h1 : cid ≠ "None" ∧ cid ∉ ids
  · rw [if_pos h1]
    simp [VALID_CONFIDENCE]
  · rw [if_neg h1]
    constructor
    · rcases not_and_or.mp h1 with h | h
      · exact Or.inl (not_not.mp h)
      · exact Or.inr (not_not.mp h)
    · by_cases h2 : conf ∉ VALID_CONFIDENCE
      · rw [if_pos h2]; simp [VALID_CONFIDENCE]
      · rw [if_neg h2]; exact not_not.mp h2

theorem validate_match_eq_spec (m : List (String × PyJson)) (ids : List String) :
    validate_match m ids = validate_match_spec m ids := by
  simp only [validate_match, validate_match_spec]
  by_cases h1 : stripStr (pyStr (dictGet m "catalog_id" (.str "None"))) ≠ "None" ∧
      stripStr (pyStr (dictGet m "catalog_id" (.str "None"))) ∉ ids
  · rw [if_pos h1, if_pos h1, if_pos h1]
  · rw [if_neg h1, if_neg h1, if_neg h1]

/-- C5: for every dict input and every set of known catalog ids,
`validate_match` returns a well-formed MatchCandidate without raising (it
is a total function), applying the rules in the spec's order: an unknown
non-sentinel id forces both fields to "None"; after that, an unrecognized
confidence is forced to "Review". -/
theorem C5_validate_match (m : List (String × PyJson)) (ids : List String) :
    validate_match m ids = validate_match_spec m ids
    ∧ ((validate_match m ids).catalog_id = "None" ∨ (validate_match m ids).catalog_id ∈ ids)
    ∧ (validate_match m ids).confidence ∈ VALID_CONFIDENCE :=
  ⟨validate_match_eq_spec m ids, validate_match_wellformed m ids⟩

/-! ## Backoff (claim C9) -/

/-- C9: the delay before retry `n+1` is `min(base^n + jitter, cap)` with
base 2 and cap 30; for jitter in `[0, 1]` it lies between `min(2^n, 30)`
and `min(2^n + 1, 30)`. -/
theorem C9_backoff_delay (n : Nat) (jitter : ℚ) (h0 : 0 ≤ jitter) (h1 : jitter ≤ 1) :
    backoff_delay n jitter = min ((2 : ℚ) ^ n + jitter) 30
    ∧ min ((2 : ℚ) ^ n) 30 ≤ backoff_delay n jitter
    ∧ backoff_delay n jitter ≤ min ((2 : ℚ) ^ n + 1) 30 := by
  unfold backoff_delay BACKOFF_BASE BACKOFF_MAX
  refine ⟨rfl, ?_, ?_⟩
  · exact min_le_min (by linarith) le_rfl
  · exact min_le_min (by linarith) le_rfl

theorem C9_backoff_delay_witness :
    min ((2 : ℚ) ^ 2) 30 ≤ backoff_delay 2 0
    ∧ backoff_delay 2 0 ≤ min ((2 : ℚ) ^ 2 + 1) 30 :=
  ⟨(C9_backoff_delay 2 0 le_rfl zero_le_one).2.1,
   (C9_backoff_delay 2 0 le_rfl zero_le_one).2.2⟩

theorem llm_attempts_all_fail (key : String) (ids : List String) (client : Client)
    (hfail : ∀ n, client.respond n = .failure ∨ client.respond n = .badJson) :
    ∀ fuel st, llm_attempts key ids client fuel st =
      (exhausted_fallback,
       { st with cache := (key, exhausted_fallback) :: st.cache,
                 api_calls := st.api_calls + fuel }) := by
  intro fuel
  induction fuel with
  | zero => intro st; simp [llm_attempts]
  | succ n ih =>
    intro st
    have harw : st.api_calls + (n + 1) = st.api_calls + 1 + n := by omega
    rw [harw]
    rcases hfail st.api_calls with h | h <;>
    · simp only [llm_attempts, h]
      rw [ih]

/-- C4: if every external call attempt fails (API failure or unparseable
JSON) through `max_retries` additional retries, `llm_fuzzy_match` returns
exactly one "None/None" entry, caches it under the track's key, and never
propagates the failure (it is a total function); `max_retries + 1`
external calls are consumed. -/
theorem C4_retries_exhausted (t : String) (catalog : List Song) (client : Client)
    (max_retries : Nat) (st : RunState)
    (hmiss : st.cache.lookup (cache_key t) = none)
    (hfail : ∀ n, client.respond n = .failure ∨ client.respond n = .badJson) :
    llm_fuzzy_match t catalog client max_retries st =
      ([⟨"None", "None"⟩],
       { st with cache := (cache_key t, [⟨"None", "None"⟩]) :: st.cache,
                 api_calls := st.api_calls + (max_retries + 1),
                 llm_episodes := st.llm_episodes + 1 }) := by
  simp only [llm_fuzzy_match, hmiss]
  rw [llm_attempts_all_fail _ _ _ hfail]
  rfl

theorem C4_retries_exhausted_witness :
    llm_fuzzy_match "x" [] ⟨fun _ => .failure⟩ MAX_RETRIES RunState.init =
      ([⟨"None", "None"⟩],
       { RunState.init with
           cache := [(cache_key "x", [⟨"None", "None"⟩])],
           api_calls := 0 + (MAX_RETRIES + 1),
           llm_episodes := 0 + 1 }) :=
  C4_retries_exhausted "x" [] ⟨fun _ => .failure⟩ MAX_RETRIES RunState.init rfl
    (fun _ => Or.inl rfl)

theorem llm_attempts_cache (key : String) (ids : List String) (client : Client) :
    ∀ fuel st, (llm_attempts key ids client fuel st).2.cache
      = (key, (llm_attempts key ids client fuel st).1) :: st.cache := by
  intro fuel
  induction fuel with
  | zero => intro st; simp [llm_attempts]
  | succ n ih =>
    intro st
    cases h : client.respond st.api_calls with
    | ok v =>
      simp only [llm_attempts, h]
      split
      · simp
      · exact ih _
    | failure => simp only [llm_attempts, h]; exact ih _
    | badJson => simp only [llm_attempts, h]; exact ih _

theorem llm_attempts_episodes (key : String) (ids : List String) (client : Client) :
    ∀ fuel st, (llm_attempts key ids client fuel st).2.llm_episodes = st.llm_episodes := by
  intro fuel
  induction fuel with
  | zero => intro st; simp [llm_attempts]
  | succ n ih =>
    intro st
    cases h : client.respond st.api_calls with
    | ok v =>
      simp only [llm_attempts, h]
      split
      · simp
      · exact ih _
    | failure => simp only [llm_attempts, h]; exact ih _
    | badJson => simp only [llm_attempts, h]; exact ih _

theorem llm_attempts_det_calls (key : String) (ids : List String) (client : Client) :
    ∀ fuel st, (llm_attempts key ids client fuel st).2.det_calls = st.det_calls := by
  intro fuel
  induction fuel with
  | zero => intro st; simp [llm_attempts]
  | succ n ih =>
    intro st
    cases h : client.respond st.api_calls with
    | ok v =>
      simp only [llm_attempts, h]
      split
      · simp
      · exact ih _
    | failure => simp only [llm_attempts, h]; exact ih _
    | badJson => simp only [llm_attempts, h]; exact ih _

/-- After any `llm_fuzzy_match` invocation, the cache holds the returned
sequence under the track's key. -/
theorem llm_cached_after (t : String) (catalog : List Song) (client : Client)
    (mr : Nat) (st : RunState) :
    (llm_fuzzy_match t catalog client mr st).2.cache.lookup (cache_key t)
      = some (llm_fuzzy_match t catalog client mr st).1 := by
  simp only [llm_fuzzy_match]
  cases h : st.cache.lookup (cache_key t) with
  | some v => simp [h]
  | none =>
    simp only [h]
    rw [llm_attempts_cache]
    simp [List.lookup]

/-- A cache hit returns the stored sequence and leaves the state unchanged. -/
theorem llm_hit (t : String) (catalog : List Song) (client : Client) (mr : Nat)
    (st : RunState) (v : List MatchCandidate)
    (h : st.cache.lookup (cache_key t) = some v) :
    llm_fuzzy_match t catalog client mr st = (v, st) := by
  simp [llm_fuzzy_match, h]

theorem llm_episodes_le (t : String) (catalog : List Song) (client : Client)
    (mr : Nat) (st : RunState) :
    (llm_fuzzy_match t catalog client mr st).2.llm_episodes ≤ st.llm_episodes + 1 := by
  simp only [llm_fuzzy_match]
  cases h : st.cache.lookup (cache_key t) with
  | some v => simp [h]
  | none =>
    simp only [h]
    rw [llm_attempts_episodes]

theorem llm_det_calls (t : String) (catalog : List Song) (client : Client)
    (mr : Nat) (st : RunState) :
    (llm_fuzzy_match t catalog client mr st).2.det_calls = st.det_calls := by
  simp only [llm_fuzzy_match]
  cases h : st.cache.lookup (cache_key t) with
  | some v => simp [h]
  | none =>
    simp only [h]
    rw [llm_attempts_det_calls]



/-- C3: within one run, a second `llm_fuzzy_match` invocation on a track
name with the same `normalize` value returns the identical sequence and
leaves the state untouched (no external call, no cache write); over the
two invocations at most one cache-missing consultation of the external
service happens.  This includes the case where the first invocation ended
in the retries-exhausted fallback, which was cached before being
returned. -/
theorem C3_same_normalized_single_call (t1 t2 : String) (cat1 cat2 : List Song)
    (cl1 cl2 : Client) (mr1 mr2 : Nat) (st : RunState)
    (hnorm : normalize t1 = normalize t2) :
    llm_fuzzy_match t2 cat2 cl2 mr2 (llm_fuzzy_match t1 cat1 cl1 mr1 st).2
      = ((llm_fuzzy_match t1 cat1 cl1 mr1 st).1, (llm_fuzzy_match t1 cat1 cl1 mr1 st).2)
    ∧ (llm_fuzzy_match t2 cat2 cl2 mr2 (llm_fuzzy_match t1 cat1 cl1 mr1 st).2).2.api_calls
      = (llm_fuzzy_match t1 cat1 cl1 mr1 st).2.api_calls
    ∧ (llm_fuzzy_match t2 cat2 cl2 mr2 (llm_fuzzy_match t1 cat1 cl1 mr1 st).2).2.llm_episodes
      ≤ st.llm_episodes + 1 := by
  have hkey : cache_key t2 = cache_key t1 := by simp [cache_key, hnorm]
  have h2 : llm_fuzzy_match t2 cat2 cl2 mr2 (llm_fuzzy_match t1 cat1 cl1 mr1 st).2
      = ((llm_fuzzy_match t1 cat1 cl1 mr1 st).1, (llm_fuzzy_match t1 cat1 cl1 mr1 st).2) :=
    llm_hit _ _ _ _ _ _ (by rw [hkey]; exact llm_cached_after t1 cat1 cl1 mr1 st)
  refine ⟨h2, by rw [h2], ?_⟩
  rw [h2]
  exact llm_episodes_le t1 cat1 cl1 mr1 st

theorem C3_same_normalized_single_call_witness :
    (llm_fuzzy_match "Tokyo (Live)" [] ⟨fun _ => .failure⟩ 1
        (llm_fuzzy_match "Tokyo (Acoustic)" [] ⟨fun _ => .failure⟩ 1 RunState.init).2
      = ((llm_fuzzy_match "Tokyo (Acoustic)" [] ⟨fun _ => .failure⟩ 1 RunState.init).1,
         (llm_fuzzy_match "Tokyo (Acoustic)" [] ⟨fun _ => .failure⟩ 1 RunState.init).2))
    ∧ (llm_fuzzy_match "Tokyo (Live)" [] ⟨fun _ => .failure⟩ 1
        (llm_fuzzy_match "Tokyo (Acoustic)" [] ⟨fun _ => .failure⟩ 1 RunState.init).2).2.api_calls
      = (llm_fuzzy_match "Tokyo (Acoustic)" [] ⟨fun _ => .failure⟩ 1 RunState.init).2.api_calls
    ∧ (llm_fuzzy_match "Tokyo (Live)" [] ⟨fun _ => .failure⟩ 1
        (llm_fuzzy_match "Tokyo (Acoustic)" [] ⟨fun _ => .failure⟩ 1 RunState.init).2).2.llm_episodes
      ≤ RunState.init.llm_episodes + 1 :=
  C3_same_normalized_single_call "Tokyo (Acoustic)" "Tokyo (Live)" [] []
    ⟨fun _ => .failure⟩ ⟨fun _ => .failure⟩ 1 1 RunState.init (by decide)

/-- C10: the cache key is computed from the normalized track name only,
never from the catalog: once a first invocation has populated the cache,
any later invocation with an equally-normalized name returns that stored
sequence — validated against the first catalog — for every second catalog
and client, without consulting them. -/
theorem C10_cache_key_ignores_catalog (t1 t2 : String) (cat1 : List Song)
    (cl1 : Client) (mr1 : Nat) (st : RunState)
    (hnorm : normalize t1 = normalize t2) :
    (llm_fuzzy_match t1 cat1 cl1 mr1 st).2.cache.lookup (cache_key t2)
      = some (llm_fuzzy_match t1 cat1 cl1 mr1 st).1
    ∧ ∀ (cat2 : List Song) (cl2 : Client) (mr2 : Nat),
        llm_fuzzy_match t2 cat2 cl2 mr2 (llm_fuzzy_match t1 cat1 cl1 mr1 st).2
          = ((llm_fuzzy_match t1 cat1 cl1 mr1 st).1,
             (llm_fuzzy_match t1 cat1 cl1 mr1 st).2) := by
  have hkey : cache_key t2 = cache_key t1 := by simp [cache_key, hnorm]
  constructor
  · rw [hkey]
    exact llm_cached_after t1 cat1 cl1 mr1 st
  · intro cat2 cl2 mr2
    exact llm_hit _ _ _ _ _ _ (by rw [hkey]; exact llm_cached_after t1 cat1 cl1 mr1 st)

theorem C10_cache_key_ignores_catalog_witness :
    (llm_fuzzy_match "Desert Rain" [⟨"CAT-9", "Other"⟩]
        ⟨fun _ => .failure⟩ 0
        (llm_fuzzy_match "Desert Rain (Live)" [⟨"CAT-7", "Desert Rain"⟩]
          ⟨fun _ => .ok (.dict [("matches", .list [.dict [("catalog_id", .str "CAT-7"),
            ("confidence", .str "High")]])])⟩ 3 RunState.init).2
      = ((llm_fuzzy_match "Desert Rain (Live)" [⟨"CAT-7", "Desert Rain"⟩]
          ⟨fun _ => .ok (.dict [("matches", .list [.dict [("catalog_id", .str "CAT-7"),
            ("confidence", .str "High")]])])⟩ 3 RunState.init).1,
         (llm_fuzzy_match "Desert Rain (Live)" [⟨"CAT-7", "Desert Rain"⟩]
          ⟨fun _ => .ok (.dict [("matches", .list [.dict [("catalog_id", .str "CAT-7"),
            ("confidence", .str "High")]])])⟩ 3 RunState.init).2))
    ∧ (llm_fuzzy_match "Desert Rain (Live)" [⟨"CAT-7", "Desert Rain"⟩]
          ⟨fun _ => .ok (.dict [("matches", .list [.dict [("catalog_id", .str "CAT-7"),
            ("confidence", .str "High")]])])⟩ 3 RunState.init).1
      = [⟨"CAT-7", "High"⟩]
    ∧ "CAT-7" ∉ ([⟨"CAT-9", "Other"⟩] : List Song).map (·.catalog_id) :=
  ⟨(C10_cache_key_ignores_catalog "Desert Rain (Live)" "Desert Rain"
      [⟨"CAT-7", "Desert Rain"⟩]
      ⟨fun _ => .ok (.dict [("matches", .list [.dict [("catalog_id", .str "CAT-7"),
        ("confidence", .str "High")]])])⟩ 3 RunState.init (by decide)).2
      [⟨"CAT-9", "Other"⟩] ⟨fun _ => .failure⟩ 0,
   by decide, by decide⟩

/-! ## Reconciler: invariants and deterministic-only mode (claims C1, C2, C6) -/

theorem lookup_mem {β : Type} (l : List (String × β)) (k : String) (v : β)
    (h : l.lookup k = some v) : (k, v) ∈ l := by
  induction l with
  | nil => simp [List.lookup] at h
  | cons p ps ih =>
    obtain ⟨k', v'⟩ := p
    by_cases hk : k = k'
    · subst hk
      simp [List.lookup] at h
      simp [h]
    · have hb : (k == k') = false := by simpa using hk
      simp only [List.lookup, hb] at h
      exact List.mem_cons_of_mem _ (ih h)

theorem validateAll_ok (ids : List String) :
    ∀ es vs, validateAll ids es = some vs → ∀ m ∈ vs, candOK ids m := by
  intro es
  induction es with
  | nil =>
    intro vs h m hm
    simp [validateAll] at h
    subst h
    simp at hm
  | cons e rest ih =>
    intro vs h m hm
    cases e with
    | dict kvs =>
      rw [validateAll] at h
      cases hr : validateAll ids rest with
      | none => rw [hr] at h; simp at h
      | some vs' =>
        rw [hr] at h
        simp only [Option.some.injEq] at h
        subst h
        rcases List.mem_cons.mp hm with h | h
        · subst h
          exact validate_match_wellformed kvs ids
        · exact ih vs' hr m h
    | null => simp [validateAll] at h
    | bool b => simp [validateAll] at h
    | int n => simp [validateAll] at h
    | str s => simp [validateAll] at h
    | list xs => simp [validateAll] at h

theorem exhausted_fallback_ok (ids : List String) :
    ∀ m ∈ exhausted_fallback, candOK ids m := by
  intro m hm
  simp [exhausted_fallback] at hm
  subst hm
  exact ⟨Or.inl rfl, by simp [VALID_CONFIDENCE]⟩

theorem llm_attempts_ok (key : String) (ids : List String) (client : Client) :
    ∀ fuel st, cacheOK ids st →
      (∀ m ∈ (llm_attempts key ids client fuel st).1, candOK ids m)
      ∧ cacheOK ids (llm_attempts key ids client fuel st).2 := by
  intro fuel
  induction fuel with
  | zero =>
    intro st hst
    refine ⟨exhausted_fallback_ok ids, ?_⟩
    intro kv hkv m hm
    rcases List.mem_cons.mp hkv with h | h
    · subst h
      exact exhausted_fallback_ok ids m hm
    · exact hst kv h m hm
  | succ n ih =>
    intro st hst
    cases h : client.respond st.api_calls with
    | ok v =>
      simp only [llm_attempts, h]
      split
      · next validated hv =>
        constructor
        · exact validateAll_ok ids _ validated hv
        · intro kv hkv m hm
          rcases List.mem_cons.mp hkv with h' | h'
          · subst h'
            exact validateAll_ok ids _ validated hv m hm
          · exact hst kv h' m hm
      · exact ih _ hst
    | failure => simp only [llm_attempts, h]; exact ih _ hst
    | badJson => simp only [llm_attempts, h]; exact ih _ hst

theorem llm_fuzzy_match_ok (t : String) (catalog : List Song) (client : Client)
    (mr : Nat) (st : RunState) (hst : cacheOK (catalog.map (·.catalog_id)) st) :
    (∀ m ∈ (llm_fuzzy_match t catalog client mr st).1,
        candOK (catalog.map (·.catalog_id)) m)
    ∧ cacheOK (catalog.map (·.catalog_id)) (llm_fuzzy_match t catalog client mr st).2 := by
  simp only [llm_fuzzy_match]
  cases h : st.cache.lookup (cache_key t) with
  | some v =>
    simp only [h]
    exact ⟨hst _ (lookup_mem _ _ _ h), hst⟩
  | none =>
    simp only [h]
    exact llm_attempts_ok _ _ _ _ _ hst

theorem deterministic_match_go_mem (tn nt : String) :
    ∀ catalog cid conf, deterministic_match_go tn nt catalog = some (cid, conf) →
      cid ∈ catalog.map (·.catalog_id) ∧ conf = "Exact" := by
  intro catalog
  induction catalog with
  | nil => intro cid conf h; simp [deterministic_match_go] at h
  | cons song rest ih =>
    intro cid conf h
    rw [deterministic_match_go] at h
    split at h
    · simp only [Option.some.injEq, Prod.mk.injEq] at h
      exact ⟨by simp [h.1.symm], h.2.symm⟩
    · split at h
      · simp only [Option.some.injEq, Prod.mk.injEq] at h
        exact ⟨by simp [h.1.symm], h.2.symm⟩
      · obtain ⟨h1, h2⟩ := ih cid conf h
        exact ⟨by simp [List.mem_cons]; right; simpa using h1, h2⟩

theorem deterministic_match_mem (tn : String) (catalog : List Song)
    (cid conf : String) (h : deterministic_match tn catalog = some (cid, conf)) :
    cid ∈ catalog.map (·.catalog_id) ∧ conf = "Exact" :=
  deterministic_match_go_mem tn (normalize tn) catalog cid conf h



theorem result_row_fields (track : Track) (cid conf : String) (catalog : List Song) :
    (_result_row track cid conf catalog).matched_catalog_id = cid
    ∧ (_result_row track cid conf catalog).match_confidence = conf :=
  ⟨rfl, rfl⟩

theorem none_row_ok (catalog : List Song) (track : Track) :
    rowOK catalog (_result_row track "None" "None" catalog) :=
  ⟨Or.inl rfl, show ("None" : String) ∈ VALID_CONFIDENCE by simp [VALID_CONFIDENCE]⟩

theorem process_track_ok (catalog : List Song) (client : Option Client)
    (track : Track) (st : RunState)
    (hst : cacheOK (catalog.map (·.catalog_id)) st) :
    (∀ row ∈ (process_track catalog client track st).1, rowOK catalog row)
    ∧ cacheOK (catalog.map (·.catalog_id)) (process_track catalog client track st).2 := by
  have hstage2 : ∀ st', cacheOK (catalog.map (·.catalog_id)) st' →
      (∀ row ∈ (match client with
        | none => ([_result_row track "None" "None" catalog], st')
        | some c =>
          let p := llm_fuzzy_match track.setlist_track_name catalog c MAX_RETRIES st'
          (p.1.map (fun m => _result_row track m.catalog_id m.confidence catalog), p.2) :
          List ResultRow × RunState).1, rowOK catalog row)
      ∧ cacheOK (catalog.map (·.catalog_id)) (match client with
        | none => ([_result_row track "None" "None" catalog], st')
        | some c =>
          let p := llm_fuzzy_match track.setlist_track_name catalog c MAX_RETRIES st'
          (p.1.map (fun m => _result_row track m.catalog_id m.confidence catalog), p.2) :
          List ResultRow × RunState).2 := by
    intro st' hst'
    cases client with
    | none =>
      refine ⟨?_, hst'⟩
      intro row hrow
      simp at hrow
      subst hrow
      exact none_row_ok catalog track
    | some c =>
      obtain ⟨hret, hcache⟩ :=
        llm_fuzzy_match_ok track.setlist_track_name catalog c MAX_RETRIES st' hst'
      refine ⟨?_, hcache⟩
      intro row hrow
      simp only [List.mem_map] at hrow
      obtain ⟨m, hm, hrow⟩ := hrow
      subst hrow
      obtain ⟨h1, h2⟩ := hret m hm
      exact ⟨h1, h2⟩
  simp only [process_track]
  by_cases hs : containsSlash track.setlist_track_name
  · simp only [hs, if_true]
    exact hstage2 st hst
  · simp only [hs, Bool.false_eq_true, if_false]
    cases hd : deterministic_match track.setlist_track_name catalog with
    | some p =>
      obtain ⟨cid, conf⟩ := p
      obtain ⟨hmem, hconf⟩ := deterministic_match_mem _ _ _ _ hd
      simp only [hd]
      by_cases hne : cid ≠ ""
      · rw [if_pos hne]
        refine ⟨?_, hst⟩
        intro row hrow
        simp at hrow
        subst hrow
        refine ⟨Or.inr hmem, ?_⟩
        rw [(result_row_fields track cid conf catalog).2, hconf]
        simp [VALID_CONFIDENCE]
      · rw [if_neg hne]
        exact hstage2 _ hst
    | none =>
      simp only [hd]
      exact hstage2 _ hst

theorem reconcile_go_ok (catalog : List Song) (client : Option Client) :
    ∀ tracks st, cacheOK (catalog.map (·.catalog_id)) st →
      ∀ row ∈ (reconcile_go catalog client tracks st).1, rowOK catalog row := by
  intro tracks
  induction tracks with
  | nil => intro st _ row hrow; simp [reconcile_go] at hrow
  | cons t ts ih =>
    intro st hst row hrow
    obtain ⟨hrows, hcache⟩ := process_track_ok catalog client t st hst
    simp only [reconcile_go, List.mem_append] at hrow
    rcases hrow with h | h
    · exact hrows row h
    · exact ih _ hcache row h



/-- C2: for every track list, catalog with well-formed unique ids, client,
environment and run starting from an empty cache, every result row's
`matched_catalog_id` is the sentinel "None" or an id present in the
catalog, and its `match_confidence` is one of the four recognized
values. -/
theorem C2_result_row_invariant (tracks : List Track) (catalog : List Song)
    (client : Option Client) (api_key_env : Option String)
    (openai_new : String → Client) (st : RunState)
    (hcache : st.cache = [])
    (hnodup : (catalog.map (·.catalog_id)).Nodup)
    (hne : ∀ song ∈ catalog, song.catalog_id ≠ "") :
    ∀ row ∈ (reconcile tracks catalog client api_key_env openai_new st).1,
      (row.matched_catalog_id = "None"
        ∨ row.matched_catalog_id ∈ catalog.map (·.catalog_id))
      ∧ row.match_confidence ∈ VALID_CONFIDENCE := by
  intro row hrow
  have hst : cacheOK (catalog.map (·.catalog_id)) st := by
    intro kv hkv
    rw [hcache] at hkv
    simp at hkv
  exact reconcile_go_ok catalog _ tracks st hst row hrow

theorem C2_result_row_invariant_witness :
    ((⟨"d", "v", "Neon Dreams", "CAT-1", "Neon Dreams", "Exact"⟩ :
        ResultRow).matched_catalog_id = "None"
      ∨ (⟨"d", "v", "Neon Dreams", "CAT-1", "Neon Dreams", "Exact"⟩ :
        ResultRow).matched_catalog_id
        ∈ ([⟨"CAT-1", "Neon Dreams"⟩] : List Song).map (·.catalog_id))
    ∧ (⟨"d", "v", "Neon Dreams", "CAT-1", "Neon Dreams", "Exact"⟩ :
        ResultRow).match_confidence ∈ VALID_CONFIDENCE :=
  C2_result_row_invariant [⟨"d", "v", "Neon Dreams"⟩] [⟨"CAT-1", "Neon Dreams"⟩]
    none none (fun _ => ⟨fun _ => .failure⟩) RunState.init rfl
    (by decide) (by decide)
    ⟨"d", "v", "Neon Dreams", "CAT-1", "Neon Dreams", "Exact"⟩ (by decide)



/-- C1 fails on the code: with `client=None` but `OPENAI_API_KEY` set,
`reconcile` constructs a client from the environment and calls out; a
deterministically-missed track then gets a real match row instead of the
claimed single "None/None" row.  One external call is issued. -/
theorem C1_counterexample :
    (reconcile [⟨"d", "v", "Mystery Song"⟩] [⟨"CAT-1", "Other"⟩] none (some "k")
      (fun _ => ⟨fun _ => .ok (.dict [("matches",
        .list [.dict [("catalog_id", .str "CAT-1"), ("confidence", .str "High")]])])⟩)
      RunState.init).2.api_calls = 1
    ∧ (reconcile [⟨"d", "v", "Mystery Song"⟩] [⟨"CAT-1", "Other"⟩] none (some "k")
      (fun _ => ⟨fun _ => .ok (.dict [("matches",
        .list [.dict [("catalog_id", .str "CAT-1"), ("confidence", .str "High")]])])⟩)
      RunState.init).1
      = [⟨"d", "v", "Mystery Song", "CAT-1", "Other", "High"⟩] := by
  decide

theorem process_track_none_client (catalog : List Song) (track : Track)
    (st : RunState) :
    (process_track catalog none track st).1 = [det_only_row catalog track]
    ∧ (process_track catalog none track st).2.cache = st.cache
    ∧ (process_track catalog none track st).2.api_calls = st.api_calls
    ∧ (process_track catalog none track st).2.llm_episodes = st.llm_episodes := by
  simp only [process_track, det_only_row]
  by_cases hs : containsSlash track.setlist_track_name
  · simp [hs]
  · simp only [hs, Bool.false_eq_true, if_false]
    cases hd : deterministic_match track.setlist_track_name catalog with
    | some p =>
      obtain ⟨cid, conf⟩ := p
      by_cases hne : cid ≠ "" <;> simp [hne]
    | none => simp

theorem reconcile_go_none_client (catalog : List Song) :
    ∀ tracks st,
      (reconcile_go catalog none tracks st).1 = tracks.map (det_only_row catalog)
      ∧ (reconcile_go catalog none tracks st).2.cache = st.cache
      ∧ (reconcile_go catalog none tracks st).2.api_calls = st.api_calls
      ∧ (reconcile_go catalog none tracks st).2.llm_episodes = st.llm_episodes := by
  intro tracks
  induction tracks with
  | nil => intro st; simp [reconcile_go]
  | cons t ts ih =>
    intro st
    obtain ⟨h1, h2, h3, h4⟩ := process_track_none_client catalog t st
    obtain ⟨g1, g2, g3, g4⟩ := ih (process_track catalog none t st).2
    simp only [reconcile_go, List.map_cons]
    refine ⟨?_, ?_, ?_, ?_⟩
    · rw [h1, g1]; rfl
    · rw [g2, h2]
    · rw [g3, h3]
    · rw [g4, h4]

/-- C1 amended: when `reconcile` is called with no matcher client AND the
`OPENAI_API_KEY` environment variable is unset (or empty), it never
fabricates a client — no external matcher is constructed or called, the
cache is untouched — and every track yields exactly one row; for every
medley track and every track missed by the deterministic matcher that row
is "None/None". -/
theorem C1_no_client_no_key (tracks : List Track) (catalog : List Song)
    (api_key_env : Option String) (openai_new : String → Client) (st : RunState)
    (henv : api_key_env = none ∨ api_key_env = some "") :
    resolve_client none api_key_env openai_new = none
    ∧ (reconcile tracks catalog none api_key_env openai_new st).1
      = tracks.map (det_only_row catalog)
    ∧ (reconcile tracks catalog none api_key_env openai_new st).2.api_calls
      = st.api_calls
    ∧ (reconcile tracks catalog none api_key_env openai_new st).2.llm_episodes
      = st.llm_episodes
    ∧ (reconcile tracks catalog none api_key_env openai_new st).2.cache = st.cache
    ∧ ∀ track : Track,
        (containsSlash track.setlist_track_name = true
          ∨ deterministic_match track.setlist_track_name catalog = none) →
        det_only_row catalog track = _result_row track "None" "None" catalog := by
  have hres : resolve_client none api_key_env openai_new = none := by
    rcases henv with h | h <;> subst h <;> rfl
  obtain ⟨g1, g2, g3, g4⟩ := reconcile_go_none_client catalog tracks st
  refine ⟨hres, ?_, ?_, ?_, ?_, ?_⟩
  · rw [reconcile, hres]; exact g1
  · rw [reconcile, hres]; exact g3
  · rw [reconcile, hres]; exact g4
  · rw [reconcile, hres]; exact g2
  · intro track htrack
    simp only [det_only_row]
    rcases htrack with h | h
    · simp [h]
    · by_cases hs : containsSlash track.setlist_track_name
      · simp [hs]
      · simp [hs, h]

theorem C1_no_client_no_key_witness :
    ((reconcile [⟨"d", "v", "A / B"⟩, ⟨"d", "v", "Mystery"⟩] [⟨"CAT-1", "A / B"⟩]
        none none (fun _ => ⟨fun _ => .failure⟩) RunState.init).1
      = [⟨"d", "v", "A / B"⟩, ⟨"d", "v", "Mystery"⟩].map
          (det_only_row [⟨"CAT-1", "A / B"⟩]))
    ∧ [⟨"d", "v", "A / B"⟩, ⟨"d", "v", "Mystery"⟩].map
          (det_only_row [⟨"CAT-1", "A / B"⟩])
      = [⟨"d", "v", "A / B", "None", "", "None"⟩,
         ⟨"d", "v", "Mystery", "None", "", "None"⟩] :=
  ⟨(C1_no_client_no_key [⟨"d", "v", "A / B"⟩, ⟨"d", "v", "Mystery"⟩]
      [⟨"CAT-1", "A / B"⟩] none (fun _ => ⟨fun _ => .failure⟩) RunState.init
      (Or.inl rfl)).2.1,
   by decide⟩



/-- C6: a track whose name contains "/" never reaches the deterministic
matcher — the instrumented `det_calls` counter is untouched, even when the
catalog holds a title exactly equal to the track name; with no client it
yields the single "None/None" row, with a client it is routed directly to
the LLM matcher, one row per returned candidate. -/
theorem C6_medley_bypasses_deterministic (track : Track) (catalog : List Song)
    (client : Option Client) (st : RunState)
    (hslash : containsSlash track.setlist_track_name = true)
    (hexact : ∃ song ∈ catalog, song.title = track.setlist_track_name) :
    (process_track catalog client track st).2.det_calls = st.det_calls
    ∧ (client = none →
        process_track catalog client track st
          = ([_result_row track "None" "None" catalog], st))
    ∧ (∀ c, client = some c →
        process_track catalog client track st
          = ((llm_fuzzy_match track.setlist_track_name catalog c MAX_RETRIES st).1.map
               (fun m => _result_row track m.catalog_id m.confidence catalog),
             (llm_fuzzy_match track.setlist_track_name catalog c MAX_RETRIES st).2)) := by
  refine ⟨?_, ?_, ?_⟩
  · simp only [process_track, hslash, if_true]
    cases client with
    | none => rfl
    | some c => exact llm_det_calls track.setlist_track_name catalog c MAX_RETRIES st
  · intro hc
    subst hc
    simp [process_track, hslash]
  · intro c hc
    subst hc
    simp [process_track, hslash]

theorem C6_medley_bypasses_deterministic_witness :
    (process_track [⟨"CAT-1", "A / B"⟩] none ⟨"d", "v", "A / B"⟩ RunState.init).2.det_calls
      = RunState.init.det_calls
    ∧ process_track [⟨"CAT-1", "A / B"⟩] none ⟨"d", "v", "A / B"⟩ RunState.init
      = ([_result_row ⟨"d", "v", "A / B"⟩ "None" "None" [⟨"CAT-1", "A / B"⟩]],
         RunState.init) :=
  ⟨(C6_medley_bypasses_deterministic ⟨"d", "v", "A / B"⟩ [⟨"CAT-1", "A / B"⟩]
      none RunState.init (by decide) (by decide)).1,
   (C6_medley_bypasses_deterministic ⟨"d", "v", "A / B"⟩ [⟨"CAT-1", "A / B"⟩]
      none RunState.init (by decide) (by decide)).2.1 rfl⟩

/-! ## The normalizer (claims C7, C8) -/

theorem hasPair_cons_ne (c : Char) (l : List Char) (h : c ≠ '(') :
    hasPair (c :: l) = hasPair l := by
  simp [hasPair, h]

theorem hasPair_cons_paren (l : List Char) :
    hasPair ('(' :: l) = (decide (')' ∈ l) || hasPair l) := by
  simp [hasPair]

theorem hasPair_tail (c : Char) (l : List Char) (h : hasPair (c :: l) = false) :
    hasPair l = false := by
  by_cases hc : c = '('
  · subst hc
    rw [hasPair_cons_paren] at h
    exact (Bool.or_eq_false_iff.mp h).2
  · rwa [hasPair_cons_ne c l hc] at h

theorem hasPair_paren_no_rparen (l : List Char) (h : hasPair ('(' :: l) = false) :
    ')' ∉ l := by
  rw [hasPair_cons_paren] at h
  have := (Bool.or_eq_false_iff.mp h).1
  simpa using this

theorem hasPair_append_paren :
    ∀ a b : List Char, hasPair (a ++ '(' :: b) = false → ')' ∉ b := by
  intro a
  induction a with
  | nil => intro b h; exact hasPair_paren_no_rparen b h
  | cons x a' ih =>
    intro b h
    exact ih b (hasPair_tail x _ h)

theorem hasPair_sublist :
    ∀ {l₁ l₂ : List Char}, l₁.Sublist l₂ → hasPair l₂ = false → hasPair l₁ = false := by
  intro l₁ l₂ hs
  induction hs with
  | slnil => intro h; exact h
  | cons a hs ih =>
    intro h
    exact ih (hasPair_tail a _ h)
  | cons₂ a hs ih =>
    intro h
    by_cases hc : a = '('
    · subst hc
      have hn2 := hasPair_paren_no_rparen _ h
      rw [hasPair_cons_paren, ih (hasPair_tail _ _ h)]
      simp only [Bool.or_false, decide_eq_false_iff_not]
      exact fun contra => hn2 (hs.subset contra)
    · rw [hasPair_cons_ne a _ hc] at h ⊢
      exact ih h

theorem findClose_sublist :
    ∀ l r : List Char, findClose l = some r → r.Sublist l := by
  intro l
  induction l with
  | nil => intro r h; simp [findClose] at h
  | cons c cs ih =>
    intro r h
    rw [findClose] at h
    by_cases h1 : c = ')'
    · rw [if_pos h1] at h
      simp only [Option.some.injEq] at h
      subst h
      exact List.sublist_cons_self c cs
    · rw [if_neg h1] at h
      by_cases h2 : c = '\n'
      · rw [if_pos h2] at h; simp at h
      · rw [if_neg h2] at h
        exact (ih r h).cons c

theorem findClose_length :
    ∀ l r : List Char, findClose l = some r → r.length < l.length := by
  intro l
  induction l with
  | nil => intro r h; simp [findClose] at h
  | cons c cs ih =>
    intro r h
    rw [findClose] at h
    by_cases h1 : c = ')'
    · rw [if_pos h1] at h
      simp only [Option.some.injEq] at h
      subst h
      simp
    · rw [if_neg h1] at h
      by_cases h2 : c = '\n'
      · rw [if_pos h2] at h; simp at h
      · rw [if_neg h2] at h
        exact Nat.lt_trans (ih r h) (by simp)

theorem findClose_none_of_no_rparen :
    ∀ l : List Char, ')' ∉ l → findClose l = none := by
  intro l
  induction l with
  | nil => intro _; rfl
  | cons c cs ih =>
    intro h
    simp only [List.mem_cons, not_or] at h
    rw [findClose, if_neg (fun he => h.1 he.symm)]
    by_cases h2 : c = '\n'
    · rw [if_pos h2]
    · rw [if_neg h2]
      exact ih h.2

theorem findClose_none_no_rparen :
    ∀ l : List Char, findClose l = none → '\n' ∉ l → ')' ∉ l := by
  intro l
  induction l with
  | nil => intro _ _; simp
  | cons c cs ih =>
    intro h hn
    simp only [List.mem_cons, not_or] at hn
    rw [findClose] at h
    by_cases h1 : c = ')'
    · rw [if_pos h1] at h; simp at h
    · rw [if_neg h1] at h
      rw [if_neg (fun he => hn.1 he.symm)] at h
      simp only [List.mem_cons, not_or]
      exact ⟨fun he => h1 he.symm, ih h hn.2⟩




theorem subPassF_mem :
    ∀ fuel l (x : Char), x ∈ subPassF fuel l → x ∈ l ∨ x = ' ' := by
  intro fuel
  induction fuel with
  | zero => intro l x hx; exact Or.inl hx
  | succ n ih =>
    intro l x hx
    cases l with
    | nil => simp [subPassF] at hx
    | cons c cs =>
      cases hdw : (c :: cs).dropWhile pyIsSpace with
      | nil =>
        simp only [subPassF, hdw] at hx
        rcases List.mem_cons.mp hx with h | h
        · exact Or.inl (h ▸ List.mem_cons_self c cs)
        · rcases ih cs x h with h' | h'
          · exact Or.inl (List.mem_cons_of_mem c h')
          · exact Or.inr h'
      | cons p rs =>
        simp only [subPassF, hdw] at hx
        by_cases hp : p = '('
        · rw [if_pos hp] at hx
          cases hfc : findClose rs with
          | some after =>
            rw [hfc] at hx
            rcases List.mem_cons.mp hx with h | h
            · exact Or.inr h
            · rcases ih _ x h with h' | h'
              · refine Or.inl ?_
                have h1 : x ∈ after := (List.dropWhile_sublist pyIsSpace).subset h'
                have h2 : x ∈ rs := (findClose_sublist rs after hfc).subset h1
                have h3 : x ∈ p :: rs := List.mem_cons_of_mem p h2
                rw [← hdw] at h3
                exact (List.dropWhile_sublist pyIsSpace).subset h3
              · exact Or.inr h'
          | none =>
            rw [hfc] at hx
            rcases List.mem_cons.mp hx with h | h
            · exact Or.inl (h ▸ List.mem_cons_self c cs)
            · rcases ih cs x h with h' | h'
              · exact Or.inl (List.mem_cons_of_mem c h')
              · exact Or.inr h'
        · rw [if_neg hp] at hx
          rcases List.mem_cons.mp hx with h | h
          · exact Or.inl (h ▸ List.mem_cons_self c cs)
          · rcases ih cs x h with h' | h'
            · exact Or.inl (List.mem_cons_of_mem c h')
            · exact Or.inr h'



theorem subPassF_noPair :
    ∀ fuel l, l.length ≤ fuel → '\n' ∉ l → hasPair (subPassF fuel l) = false := by
  intro fuel
  induction fuel with
  | zero =>
    intro l hlen _
    rw [List.eq_nil_of_length_eq_zero (Nat.le_zero.mp hlen)]
    rfl
  | succ n ih =>
    intro l hlen hnl
    cases l with
    | nil => simp [subPassF, hasPair]
    | cons c cs =>
      have hnl' : '\n' ∉ cs := fun h => hnl (List.mem_cons_of_mem c h)
      have hlen' : cs.length ≤ n := by simpa using hlen
      cases hdw : (c :: cs).dropWhile pyIsSpace with
      | nil =>
        simp only [subPassF, hdw]
        have hcws : pyIsSpace c = true :=
          (List.dropWhile_eq_nil_iff.mp hdw) c (List.mem_cons_self c cs)
        have hcp : c ≠ '(' := by
          intro h
          subst h
          exact absurd hcws (by decide)
        rw [hasPair_cons_ne c _ hcp]
        exact ih cs hlen' hnl'
      | cons p rs =>
        simp only [subPassF, hdw]
        by_cases hp : p = '('
        · rw [if_pos hp]
          cases hfc : findClose rs with
          | some after =>
            have hL1 : rs.length ≤ cs.length := by
              have h2 : ((c :: cs).dropWhile pyIsSpace).length ≤ (c :: cs).length :=
                (List.dropWhile_sublist pyIsSpace).length_le
              rw [hdw] at h2
              simpa using h2
            have hL2 : after.length < rs.length := findClose_length rs after hfc
            have hL3 : (after.dropWhile pyIsSpace).length ≤ after.length :=
              (List.dropWhile_sublist pyIsSpace).length_le
            rw [hasPair_cons_ne ' ' _ (by decide)]
            refine ih _ (by omega) ?_
            intro hmem
            have h1 : ('\n' : Char) ∈ after := (List.dropWhile_sublist _).subset hmem
            have h2 : ('\n' : Char) ∈ rs := (findClose_sublist rs after hfc).subset h1
            have h3 : ('\n' : Char) ∈ p :: rs := List.mem_cons_of_mem p h2
            rw [← hdw] at h3
            exact hnl ((List.dropWhile_sublist _).subset h3)
          | none =>
            by_cases hc : c = '('
            · subst hc
              rw [List.dropWhile_cons_of_neg (by decide)] at hdw
              injection hdw with hdp hdr
              have hnr : ')' ∉ cs :=
                findClose_none_no_rparen cs (by rw [hdr]; exact hfc) hnl'
              rw [hasPair_cons_paren]
              refine Bool.or_eq_false_iff.mpr ⟨?_, ih cs hlen' hnl'⟩
              simp only [decide_eq_false_iff_not]
              intro hmem
              rcases subPassF_mem n cs ')' hmem with h | h
              · exact hnr h
              · exact absurd h (by decide)
            · rw [hasPair_cons_ne c _ hc]
              exact ih cs hlen' hnl'
        · rw [if_neg hp]
          have hc : c ≠ '(' := by
            intro h
            subst h
            rw [List.dropWhile_cons_of_neg (by decide)] at hdw
            injection hdw with h1 _
            exact hp h1.symm
          rw [hasPair_cons_ne c _ hc]
          exact ih cs hlen' hnl'

theorem subPassF_id_of_noPair :
    ∀ fuel l, l.length ≤ fuel → hasPair l = false → subPassF fuel l = l := by
  intro fuel
  induction fuel with
  | zero =>
    intro l hlen _
    rfl
  | succ n ih =>
    intro l hlen h
    cases l with
    | nil => simp [subPassF]
    | cons c cs =>
      have hlen' : cs.length ≤ n := by simpa using hlen
      have htail : hasPair cs = false := hasPair_tail c cs h
      cases hdw : (c :: cs).dropWhile pyIsSpace with
      | nil =>
        simp only [subPassF, hdw]
        rw [ih cs hlen' htail]
      | cons p rs =>
        simp only [subPassF, hdw]
        by_cases hp : p = '('
        · have hsplit : (c :: cs).takeWhile pyIsSpace ++ (c :: cs).dropWhile pyIsSpace
              = c :: cs := List.takeWhile_append_dropWhile pyIsSpace (c :: cs)
          have h' : hasPair ((c :: cs).takeWhile pyIsSpace ++ '(' :: rs) = false := by
            rw [← hp, ← hdw, hsplit]
            exact h
          have hnr : ')' ∉ rs := hasPair_append_paren _ rs h'
          have hfc : findClose rs = none := findClose_none_of_no_rparen rs hnr
          rw [if_pos hp, hfc, ih cs hlen' htail]
        · rw [if_neg hp, ih cs hlen' htail]

theorem subPass_noPair (l : List Char) (h : '\n' ∉ l) : hasPair (subPass l) = false :=
  subPassF_noPair l.length l le_rfl h

theorem subPass_id_of_noPair (l : List Char) (h : hasPair l = false) : subPass l = l :=
  subPassF_id_of_noPair l.length l le_rfl h

theorem subPass_mem (l : List Char) (x : Char) (hx : x ∈ subPass l) : x ∈ l ∨ x = ' ' :=
  subPassF_mem l.length l x hx



theorem hasPair_map_lower :
    ∀ l : List Char, hasPair (l.map pyLower) = hasPair l := by
  intro l
  induction l with
  | nil => rfl
  | cons c cs ih =>
    by_cases hc : c = '('
    · subst hc
      rw [List.map_cons, show pyLower '(' = '(' from by decide,
        hasPair_cons_paren, hasPair_cons_paren, ih]
      have hmem : (')' ∈ cs.map pyLower) ↔ ')' ∈ cs := by
        simp only [List.mem_map]
        constructor
        · rintro ⟨x, hx, he⟩
          rw [pyLower_eq_iff x ')' (by decide) (by decide)] at he
          exact he ▸ hx
        · intro h
          exact ⟨')', h, by decide⟩
      rw [show (decide (')' ∈ cs.map pyLower)) = decide (')' ∈ cs) from by
        simp only [decide_eq_decide]; exact hmem]
    · have hlc : pyLower c ≠ '(' :=
        fun he => hc ((pyLower_eq_iff c '(' (by decide) (by decide)).mp he)
      rw [List.map_cons, hasPair_cons_ne _ _ hlc, hasPair_cons_ne _ _ hc, ih]

theorem collapseWsF_nil (fuel : Nat) : collapseWsF fuel [] = [] := by
  cases fuel <;> rfl

theorem collapseWsF_mem :
    ∀ fuel l (x : Char), x ∈ collapseWsF fuel l → x ∈ l ∨ x = ' ' := by
  intro fuel
  induction fuel with
  | zero => intro l x hx; exact Or.inl hx
  | succ n ih =>
    intro l x hx
    cases l with
    | nil => simp [collapseWsF] at hx
    | cons c cs =>
      by_cases hws : pyIsSpace c
      · rw [collapseWsF, if_pos hws] at hx
        rcases List.mem_cons.mp hx with h | h
        · exact Or.inr h
        · rcases ih _ x h with h' | h'
          · exact Or.inl (List.mem_cons_of_mem c ((List.dropWhile_sublist _).subset h'))
          · exact Or.inr h'
      · rw [collapseWsF, if_neg hws] at hx
        rcases List.mem_cons.mp hx with h | h
        · exact Or.inl (h ▸ List.mem_cons_self c cs)
        · rcases ih cs x h with h' | h'
          · exact Or.inl (List.mem_cons_of_mem c h')
          · exact Or.inr h'

theorem collapseWsF_noPair :
    ∀ fuel l, hasPair l = false → hasPair (collapseWsF fuel l) = false := by
  intro fuel
  induction fuel with
  | zero => intro l h; exact h
  | succ n ih =>
    intro l h
    cases l with
    | nil => simp [collapseWsF, hasPair]
    | cons c cs =>
      have htail := hasPair_tail c cs h
      by_cases hws : pyIsSpace c
      · rw [collapseWsF, if_pos hws, hasPair_cons_ne ' ' _ (by decide)]
        exact ih _ (hasPair_sublist (List.dropWhile_sublist _) htail)
      · rw [collapseWsF, if_neg hws]
        by_cases hc : c = '('
        · subst hc
          have hnr := hasPair_paren_no_rparen cs h
          rw [hasPair_cons_paren]
          refine Bool.or_eq_false_iff.mpr ⟨?_, ih cs htail⟩
          simp only [decide_eq_false_iff_not]
          intro hmem
          rcases collapseWsF_mem n cs ')' hmem with h' | h'
          · exact hnr h'
          · exact absurd h' (by decide)
        · rw [hasPair_cons_ne c _ hc]
          exact ih cs htail

theorem dropWhile_head_false :
    ∀ (cs : List Char) d ds, cs.dropWhile pyIsSpace = d :: ds → pyIsSpace d = false := by
  intro cs
  induction cs with
  | nil => intro d ds h; simp at h
  | cons x xs ih =>
    intro d ds h
    by_cases hws : pyIsSpace x
    · rw [List.dropWhile_cons_of_pos hws] at h
      exact ih d ds h
    · rw [List.dropWhile_cons_of_neg hws] at h
      injection h with h1 _
      subst h1
      exact Bool.not_eq_true _ ▸ (by simpa using hws)

theorem hasDoubleWs_cons_cons (a b : Char) (l : List Char) :
    hasDoubleWs (a :: b :: l) = ((pyIsSpace a && pyIsSpace b) || hasDoubleWs (b :: l)) :=
  rfl

theorem hasDoubleWs_cons_not_ws (c : Char) (l : List Char) (h : pyIsSpace c = false) :
    hasDoubleWs (c :: l) = hasDoubleWs l := by
  cases l with
  | nil => simp [hasDoubleWs]
  | cons b bs => rw [hasDoubleWs_cons_cons, h]; simp

theorem hasDoubleWs_tail (c : Char) (cs : List Char)
    (h : hasDoubleWs (c :: cs) = false) : hasDoubleWs cs = false := by
  cases cs with
  | nil => rfl
  | cons b bs =>
    rw [hasDoubleWs_cons_cons] at h
    exact (Bool.or_eq_false_iff.mp h).2

theorem collapseWsF_noDouble :
    ∀ fuel l, l.length ≤ fuel → hasDoubleWs (collapseWsF fuel l) = false := by
  intro fuel
  induction fuel with
  | zero =>
    intro l hlen
    rw [List.eq_nil_of_length_eq_zero (Nat.le_zero.mp hlen)]
    rfl
  | succ n ih =>
    intro l hlen
    cases l with
    | nil => simp [collapseWsF, hasDoubleWs]
    | cons c cs =>
      have hlen' : cs.length ≤ n := by simpa using hlen
      by_cases hws : pyIsSpace c
      · rw [collapseWsF, if_pos hws]
        cases hd : cs.dropWhile pyIsSpace with
        | nil => rw [collapseWsF_nil]; rfl
        | cons d ds =>
          have hdws : pyIsSpace d = false := dropWhile_head_false cs d ds hd
          have hdlen : (d :: ds).length ≤ n := by
            have hdl : (cs.dropWhile pyIsSpace).length ≤ cs.length :=
              (List.dropWhile_sublist pyIsSpace).length_le
            rw [hd] at hdl
            omega
          obtain ⟨m, rfl⟩ : ∃ m, n = m + 1 := ⟨n - 1, by simp at hdlen; omega⟩
          rw [show collapseWsF (m + 1) (d :: ds) = d :: collapseWsF m ds from by
            rw [collapseWsF, if_neg (by simp [hdws])]]
          rw [hasDoubleWs_cons_cons, hdws]
          simp only [Bool.and_false, Bool.false_or]
          have := ih (d :: ds) hdlen
          rwa [show collapseWsF (m + 1) (d :: ds) = d :: collapseWsF m ds from by
            rw [collapseWsF, if_neg (by simp [hdws])]] at this
      · rw [collapseWsF, if_neg hws]
        rw [hasDoubleWs_cons_not_ws c _ (by simpa using hws)]
        exact ih cs hlen'

theorem collapseWsF_blank :
    ∀ fuel l, l.length ≤ fuel →
      ∀ x ∈ collapseWsF fuel l, pyIsSpace x = true → x = ' ' := by
  intro fuel
  induction fuel with
  | zero =>
    intro l hlen x hx _
    rw [List.eq_nil_of_length_eq_zero (Nat.le_zero.mp hlen)] at hx
    simp [collapseWsF_nil] at hx
  | succ n ih =>
    intro l hlen x hx hxws
    cases l with
    | nil => simp [collapseWsF] at hx
    | cons c cs =>
      have hlen' : cs.length ≤ n := by simpa using hlen
      by_cases hws : pyIsSpace c
      · rw [collapseWsF, if_pos hws] at hx
        rcases List.mem_cons.mp hx with h | h
        · exact h
        · refine ih _ ?_ x h hxws
          have hdl : (cs.dropWhile pyIsSpace).length ≤ cs.length :=
            (List.dropWhile_sublist pyIsSpace).length_le
          omega
      · rw [collapseWsF, if_neg hws] at hx
        rcases List.mem_cons.mp hx with h | h
        · subst h; exact absurd hxws (by simpa using hws)
        · exact ih cs hlen' x h hxws

theorem collapseWsF_id :
    ∀ fuel l, l.length ≤ fuel → hasDoubleWs l = false →
      (∀ c ∈ l, pyIsSpace c = true → c = ' ') → collapseWsF fuel l = l := by
  intro fuel
  induction fuel with
  | zero =>
    intro l hlen _ _
    rfl
  | succ n ih =>
    intro l hlen hdb hbl
    cases l with
    | nil => simp [collapseWsF]
    | cons c cs =>
      have hlen' : cs.length ≤ n := by simpa using hlen
      have hdb' := hasDoubleWs_tail c cs hdb
      have hbl' : ∀ x ∈ cs, pyIsSpace x = true → x = ' ' :=
        fun x hx => hbl x (List.mem_cons_of_mem c hx)
      by_cases hws : pyIsSpace c
      · have hcsp : c = ' ' := hbl c (List.mem_cons_self c cs) hws
        rw [collapseWsF, if_pos hws]
        cases cs with
        | nil => simp [List.dropWhile_nil, collapseWsF_nil, hcsp]
        | cons d ds =>
          have hdws : pyIsSpace d = false := by
            rw [hasDoubleWs_cons_cons, hws] at hdb
            simpa using (Bool.or_eq_false_iff.mp hdb).1
          rw [List.dropWhile_cons_of_neg (by simp [hdws])]
          rw [ih (d :: ds) hlen' hdb' hbl', hcsp]
      · rw [collapseWsF, if_neg hws, ih cs hlen' hdb' hbl']



theorem collapseWsF_noLead :
    ∀ fuel l, noLead l → noLead (collapseWsF fuel l) := by
  intro fuel l h
  cases fuel with
  | zero => exact h
  | succ n =>
    cases l with
    | nil => intro x hx; simp [collapseWsF] at hx
    | cons c cs =>
      have hcws : pyIsSpace c = false := h c rfl
      rw [collapseWsF, if_neg (by simp [hcws])]
      intro x hx
      simp only [List.head?_cons, Option.some.injEq] at hx
      exact hx ▸ hcws

theorem getLast?_cons_ne_nil (c : Char) (l : List Char) (h : l ≠ []) :
    (c :: l).getLast? = l.getLast? := by
  cases l with
  | nil => exact absurd rfl h
  | cons b bs => exact List.getLast?_cons_cons

theorem noTrail_tail (c : Char) (cs : List Char) (h : noTrail (c :: cs))
    (hne : cs ≠ []) : noTrail cs := by
  intro x hx
  exact h x ((getLast?_cons_ne_nil c cs hne) ▸ hx)

theorem collapseWsF_ne_nil (fuel : Nat) (c : Char) (cs : List Char) :
    collapseWsF (fuel + 1) (c :: cs) ≠ [] := by
  by_cases hws : pyIsSpace c
  · rw [collapseWsF, if_pos hws]; simp
  · rw [collapseWsF, if_neg hws]; simp

theorem dropWhile_getLast? (cs : List Char)
    (hne : cs.dropWhile pyIsSpace ≠ []) :
    (cs.dropWhile pyIsSpace).getLast? = cs.getLast? := by
  obtain ⟨t, ht⟩ :=
    (List.dropWhile_suffix pyIsSpace : List.IsSuffix (cs.dropWhile pyIsSpace) cs)
  have h2 : (t ++ cs.dropWhile pyIsSpace).getLast? = (cs.dropWhile pyIsSpace).getLast? :=
    List.getLast?_append_of_ne_nil t hne
  rw [ht] at h2
  exact h2.symm

theorem collapseWsF_noTrail :
    ∀ fuel l, l.length ≤ fuel → noTrail l → noTrail (collapseWsF fuel l) := by
  intro fuel
  induction fuel with
  | zero =>
    intro l hlen h
    rwa [List.eq_nil_of_length_eq_zero (Nat.le_zero.mp hlen)] at h ⊢
  | succ n ih =>
    intro l hlen h
    cases l with
    | nil => simpa [collapseWsF] using h
    | cons c cs =>
      have hlen' : cs.length ≤ n := by simpa using hlen
      by_cases hws : pyIsSpace c
      · cases hcs : cs with
        | nil =>
          subst hcs
          have := h c rfl
          exact absurd hws (by simp [this])
        | cons d ds =>
          subst hcs
          have hct : noTrail (d :: ds) := noTrail_tail c _ h (by simp)
          have hlast : ∃ z, (d :: ds).getLast? = some z := by
            cases hgl : (d :: ds).getLast? with
            | none => simp at hgl
            | some z => exact ⟨z, rfl⟩
          obtain ⟨z, hz⟩ := hlast
          have hzws : pyIsSpace z = false := hct z hz
          have hzmem : z ∈ d :: ds := List.mem_of_mem_getLast? (by rw [hz]; rfl)
          have hdwne : (d :: ds).dropWhile pyIsSpace ≠ [] := by
            intro hcon
            exact absurd ((List.dropWhile_eq_nil_iff.mp hcon) z hzmem) (by simp [hzws])
          rw [collapseWsF, if_pos hws]
          cases hdw : (d :: ds).dropWhile pyIsSpace with
          | nil => exact absurd hdw hdwne
          | cons e es =>
            have helen : (e :: es).length ≤ n := by
              have hdl : ((d :: ds).dropWhile pyIsSpace).length ≤ (d :: ds).length :=
                (List.dropWhile_sublist pyIsSpace).length_le
              rw [hdw] at hdl
              simp only [List.length_cons] at hdl hlen ⊢
              omega
            obtain ⟨m, rfl⟩ : ∃ m, n = m + 1 :=
              ⟨n - 1, by simp only [List.length_cons] at helen; omega⟩
            have hXne : collapseWsF (m + 1) (e :: es) ≠ [] :=
              collapseWsF_ne_nil m e es
            intro x hx
            rw [getLast?_cons_ne_nil ' ' _ hXne] at hx
            have hdtr : noTrail (e :: es) := by
              rw [← hdw]
              intro y hy
              rw [dropWhile_getLast? (d :: ds) (hdw ▸ hdwne)] at hy
              exact hct y hy
            exact ih (e :: es) helen hdtr x (hdw ▸ hx)
      · rw [collapseWsF, if_neg hws]
        cases hcs : cs with
        | nil =>
          subst hcs
          rw [collapseWsF_nil]
          intro x hx
          simp only [List.getLast?_singleton, Option.some.injEq] at hx
          have := h c rfl
          exact hx ▸ (by simpa using hws)
        | cons d ds =>
          subst hcs
          obtain ⟨m, rfl⟩ : ∃ m, n = m + 1 :=
            ⟨n - 1, by simp only [List.length_cons] at hlen'; omega⟩
          have hXne : collapseWsF (m + 1) (d :: ds) ≠ [] :=
            collapseWsF_ne_nil m d ds
          intro x hx
          rw [getLast?_cons_ne_nil c _ hXne] at hx
          exact ih (d :: ds) hlen' (noTrail_tail c _ h (by simp)) x hx



theorem noLead_dropWhile (l : List Char) : noLead (l.dropWhile pyIsSpace) := by
  intro x hx
  cases hdw : l.dropWhile pyIsSpace with
  | nil => rw [hdw] at hx; simp at hx
  | cons d ds =>
    rw [hdw] at hx
    simp only [List.head?_cons, Option.some.injEq] at hx
    exact hx ▸ dropWhile_head_false l d ds hdw

theorem noTrail_rdropWhile (l : List Char) : noTrail (l.rdropWhile pyIsSpace) := by
  intro x hx
  have hne : l.rdropWhile pyIsSpace ≠ [] := by
    intro hcon
    rw [hcon] at hx
    simp at hx
  have hlast := List.rdropWhile_last_not pyIsSpace l hne
  rw [List.getLast?_eq_getLast _ hne] at hx
  simp only [Option.some.injEq] at hx
  rw [hx] at hlast
  simpa using hlast

theorem noLead_pyStrip (l : List Char) : noLead (pyStrip l) := by
  intro x hx
  cases hps : pyStrip l with
  | nil => rw [hps] at hx; simp at hx
  | cons y ys =>
    rw [hps] at hx
    simp only [List.head?_cons, Option.some.injEq] at hx
    obtain ⟨t, ht⟩ := List.rdropWhile_prefix pyIsSpace (l.dropWhile pyIsSpace)
    rw [pyStrip] at hps
    rw [hps] at ht
    have hdw : l.dropWhile pyIsSpace = y :: (ys ++ t) := by
      rw [← ht]; simp
    rw [← hx]
    exact dropWhile_head_false l y (ys ++ t) hdw

theorem noTrail_pyStrip (l : List Char) : noTrail (pyStrip l) :=
  noTrail_rdropWhile (l.dropWhile pyIsSpace)

theorem pyStrip_sublist (l : List Char) : (pyStrip l).Sublist l :=
  ((List.rdropWhile_prefix pyIsSpace (l.dropWhile pyIsSpace)).sublist).trans
    (List.dropWhile_sublist pyIsSpace)

theorem pyStrip_eq_self (l : List Char) (h1 : noLead l) (h2 : noTrail l) :
    pyStrip l = l := by
  have hdw : l.dropWhile pyIsSpace = l := by
    cases l with
    | nil => rfl
    | cons c cs => exact List.dropWhile_cons_of_neg (by simp [h1 c rfl])
  rw [pyStrip, hdw]
  refine List.rdropWhile_eq_self_iff.mpr ?_
  intro hl
  have := h2 (l.getLast hl) (List.getLast?_eq_getLast l hl)
  simp [this]



theorem normalize_noPair (t : String) (h : '\n' ∉ t.data) :
    hasPair (normalize t).data = false := by
  have h1 : hasPair (subPass t.data) = false := subPass_noPair _ h
  have h2 : hasPair ((subPass t.data).map pyLower) = false := by
    rw [hasPair_map_lower]; exact h1
  have h3 : hasPair (pyStrip ((subPass t.data).map pyLower)) = false :=
    hasPair_sublist (pyStrip_sublist _) h2
  exact collapseWsF_noPair _ _ h3

theorem normalize_noDouble (t : String) : hasDoubleWs (normalize t).data = false :=
  collapseWsF_noDouble _ _ le_rfl

theorem normalize_blank (t : String) :
    ∀ c ∈ (normalize t).data, pyIsSpace c = true → c = ' ' :=
  collapseWsF_blank _ _ le_rfl

theorem normalize_noLead (t : String) : noLead (normalize t).data :=
  collapseWsF_noLead _ _ (noLead_pyStrip _)

theorem normalize_noTrail (t : String) : noTrail (normalize t).data :=
  collapseWsF_noTrail _ _ le_rfl (noTrail_pyStrip _)

theorem normalize_allLower (t : String) :
    ∀ c ∈ (normalize t).data, pyLower c = c := by
  intro c hc
  rcases collapseWsF_mem _ _ c hc with h | h
  · have h2 := (pyStrip_sublist _).subset h
    obtain ⟨x, hx, he⟩ := List.mem_map.mp h2
    rw [← he]
    exact pyLower_pyLower x
  · rw [h]; decide

/-- C7 fails on the code as stated for all strings: the single
`re.sub(r'\s*\(.*?\)\s*', ' ', ...)` pass cannot remove a parenthetical
whose interior spans a newline (`.` does not match `'\n'`), but the
whitespace collapse then turns the newline into a space, so a second
application removes it: `normalize "(a\nb)" = "(a b)"` while
`normalize (normalize "(a\nb)") = ""`. -/
theorem C7_counterexample : normalize (normalize "(a\nb)") ≠ normalize "(a\nb)" := by
  decide

/-- C7 amended: `normalize` is idempotent on every string that contains no
newline character. -/
theorem C7_normalize_idempotent (t : String) (h : '\n' ∉ t.data) :
    normalize (normalize t) = normalize t := by
  set u := normalize t with hu
  have h1 : subPass u.data = u.data := subPass_id_of_noPair _ (normalize_noPair t h)
  have h2 : u.data.map pyLower = u.data := by
    calc u.data.map pyLower = u.data.map id :=
          List.map_congr_left (fun a ha => normalize_allLower t a ha)
      _ = u.data := List.map_id u.data
  have h3 : pyStrip u.data = u.data :=
    pyStrip_eq_self _ (normalize_noLead t) (normalize_noTrail t)
  have h4 : collapseWs u.data = u.data :=
    collapseWsF_id _ _ le_rfl (normalize_noDouble t) (normalize_blank t)
  show (⟨collapseWs (pyStrip ((subPass u.data).map pyLower))⟩ : String) = u
  rw [h1, h2, h3, h4]

theorem C7_normalize_idempotent_witness :
    normalize (normalize "Song (Live) (Remix)") = normalize "Song (Live) (Remix)" :=
  C7_normalize_idempotent "Song (Live) (Remix)" (by decide)

/-- C8 fails on the code as stated for all strings: for the input
`"(a\nb)"` the single substitution pass leaves the parenthetical intact
(`.` does not cross the newline) and the output `"(a b)"` contains a
parenthesized substring. -/
theorem C8_counterexample : containsParenPair (normalize "(a\nb)") = true := by
  decide

/-- C8 amended: for every string, `normalize t` contains no two
consecutive whitespace characters; and for every string without a newline
character, `normalize t` contains no parenthesized substring. -/
theorem C8_normalized_shape (t : String) :
    containsDoubleWs (normalize t) = false
    ∧ ('\n' ∉ t.data → containsParenPair (normalize t) = false) :=
  ⟨normalize_noDouble t, fun h => normalize_noPair t h⟩

theorem C8_normalized_shape_witness :
    containsDoubleWs (normalize "A (x) B") = false
    ∧ containsParenPair (normalize "A (x) B") = false :=
  ⟨(C8_normalized_shape "A (x) B").1, (C8_normalized_shape "A (x) B").2 (by decide)⟩

end Wcm
